import Mathlib

/-!
Verification of the YAML frontmatter parser in
`skills/skill-crafting/scripts/frontmatter.py`.

The parser is shallowly embedded over `List Char`.  Python strings become
`List Char`; the `while` loops of `parse_simple_yaml` become fuel-indexed
structural recursions (`none` = the loop has not finished within the given
fuel; the inner list loop provably terminates, so it carries an exact
counter instead).  The two `re.match` patterns are embedded by their
deterministic maximal-munch readings, which coincide with the backtracking
semantics because the identifier class `[a-zA-Z0-9_-]` is disjoint from
`\s` and from `:`, and the patterns are anchored.
-/

/-- Python strings, as lists of characters. -/
abbrev Str := List Char

/-- The ASCII whitespace characters recognised by Python's `str.strip()`,
`str.split()` and by `\s` in the `re` patterns (the inputs concerned are
ASCII, so the extra Unicode whitespace of Python never arises). -/
def pyIsWS (c : Char) : Bool :=
  decide (c = ' ' ∨ c = '\t' ∨ c = '\n' ∨ c = '\r' ∨ c = '\x0b' ∨ c = '\x0c')

/-- Python `str.strip()`: remove leading and trailing whitespace. -/
def pyStrip (cs : Str) : Str :=
  ((cs.dropWhile pyIsWS).reverse.dropWhile pyIsWS).reverse

/-- Python `len(line) - len(line.lstrip())`: the number of leading
whitespace characters (a raw count, each space or tab counting as one). -/
def countLeadingWS (cs : Str) : Nat := (cs.takeWhile pyIsWS).length

/-- Python `str.startswith`. -/
def startsWithStr : Str → Str → Bool
  | [], _ => true
  | _ :: _, [] => false
  | p :: ps, c :: cs => decide (p = c) && startsWithStr ps cs

/-- Python `str.split('\n')` (keeps empty pieces). -/
def splitNl : Str → List Str
  | [] => [[]]
  | c :: rest =>
    if c = '\n' then [] :: splitNl rest
    else
      match splitNl rest with
      | [] => [[c]]
      | l :: ls => (c :: l) :: ls

/-- Position of the first occurrence of the (non-empty) pattern `pat` in
`cs`, used for Python `str.index` (`none` models the `ValueError`). -/
def findSub (pat : Str) : Str → Option Nat
  | [] => none
  | c :: rest =>
    if startsWithStr pat (c :: rest) then some 0
    else (findSub pat rest).map (fun n => n + 1)

/-- The character class `[a-zA-Z0-9_-]` of the key regexes. -/
def isIdentChar (c : Char) : Bool :=
  c.isAlpha || c.isDigit || decide (c = '_') || decide (c = '-')

/-- `re.match(r'^([a-zA-Z][a-zA-Z0-9_-]*)\s*:\s*(.*)$', s)`, returning the
two groups.  Deterministic reading: maximal identifier munch, maximal
whitespace munch, then a literal `:`, then group 2 is the rest of the line
after the maximal whitespace run. -/
def matchKeyValue : Str → Option (Str × Str)
  | [] => none
  | c :: rest =>
    if c.isAlpha then
      match (rest.dropWhile isIdentChar).dropWhile pyIsWS with
      | ':' :: tail => some (c :: rest.takeWhile isIdentChar, tail.dropWhile pyIsWS)
      | _ => none
    else none

/-- `re.match(r'^\s+([a-zA-Z][a-zA-Z0-9_-]*)\s*:\s*(.*)$', s)`: at least
one leading whitespace character, then as in `matchKeyValue`. -/
def matchNestedKV (cs : Str) : Option (Str × Str) :=
  match cs with
  | [] => none
  | c :: _ => if pyIsWS c then matchKeyValue (cs.dropWhile pyIsWS) else none

/-- `re.match(r'^\s*-\s*(.+)$', s)`: group 1 is the rest after the dash,
with the maximal whitespace run removed except that `.+` must keep at
least one character. -/
def matchListItem (cs : Str) : Option Str :=
  match cs.dropWhile pyIsWS with
  | '-' :: rest =>
    if rest = [] then none
    else some (rest.drop (min (rest.takeWhile pyIsWS).length (rest.length - 1)))
  | _ => none

/-- Python `value.startswith('"') and value.endswith('"')` quote stripping
(`value[1:-1]`), double quotes tried first, as in lines 99-102 / 131-134. -/
def stripQuotes (v : Str) : Str :=
  if v.headD ' ' = '"' ∧ v.getLastD ' ' = '"' then (v.drop 1).dropLast
  else if v.headD ' ' = '\'' ∧ v.getLastD ' ' = '\'' then (v.drop 1).dropLast
  else v

/-- The values the parser builds: strings, lists, and string-keyed
mappings (Python `dict`s, as insertion-ordered association lists). -/
inductive YamlVal where
  | str : Str → YamlVal
  | list : List YamlVal → YamlVal
  | map : List (Str × YamlVal) → YamlVal

/-- A Python `dict` with string keys: insertion-ordered association list
with unique keys maintained by `insertA`. -/
abbrev YDict := List (Str × YamlVal)

/-- Python `d[k] = v`: replace in place if the key is present, else append. -/
def insertA : YDict → Str → YamlVal → YDict
  | [], k, v => [(k, v)]
  | (k1, v1) :: rest, k, v =>
    if k1 = k then (k1, v) :: rest else (k1, v1) :: insertA rest k v

/-- Python `d.get(k)`: first (unique) matching key. -/
def lookupA : YDict → Str → Option YamlVal
  | [], _ => none
  | (k1, v1) :: rest, k => if k1 = k then some v1 else lookupA rest k

/-- Python `'\n'.join(pieces)`. -/
def strJoinNl : List Str → Str
  | [] => []
  | [s] => s
  | s :: t :: rest => s ++ '\n' :: strJoinNl (t :: rest)

/-- Python `':' in s`. -/
def hasColon (cs : Str) : Bool := cs.any (fun c => decide (c = ':'))

/-- Worker for Python `str.split()` (split on whitespace runs, no empty
pieces); `cur` is the current token, reversed. -/
def pySplitGo : Str → Str → List Str
  | [], cur => if cur = [] then [] else [cur.reverse]
  | c :: rest, cur =>
    if pyIsWS c then
      if cur = [] then pySplitGo rest []
      else cur.reverse :: pySplitGo rest []
    else pySplitGo rest (c :: cur)

/-- Python `str.split()` with no argument. -/
def pySplit (cs : Str) : List Str := pySplitGo cs []

/-- One whitespace-separated token of `parse_list_item`: if it contains a
colon, Python `part.partition(':')` plus the `if val:` guard — `some`
exactly when the part after the first colon is non-empty. -/
def tokKV (part : Str) : Option (Str × Str) :=
  if hasColon part then
    let v := (part.dropWhile (fun c => decide (c ≠ ':'))).drop 1
    if v = [] then none
    else some (pyStrip (part.takeWhile (fun c => decide (c ≠ ':'))), pyStrip v)
  else none

/-- `parse_list_item` (frontmatter.py lines 152-167). -/
def parse_list_item (itemText : Str) : YamlVal :=
  let t := pyStrip itemText
  if hasColon t then
    let r := (pySplit t).foldl
      (fun acc part =>
        match tokKV part with
        | some (k, v) => insertA acc k (YamlVal.str v)
        | none => acc) []
    match r with
    | [] => YamlVal.str t
    | _ :: _ => YamlVal.map r
  else YamlVal.str t

/-- The list-consuming loop of `parse_simple_yaml` (lines 122-127):
`while i < len(lines) and lines[i].strip().startswith('-')`.  Each
iteration advances `i`, so the loop terminates; the counter starts at
`lines.length - i`, which bounds the possible iterations, so the
fuel-exhausted case (`i = lines.length`) returns exactly what the Python
loop returns there. -/
def listLoop (lines : List Str) : Nat → Nat → List YamlVal → Nat × List YamlVal
  | 0, i, acc => (i, acc)
  | fuel + 1, i, acc =>
    match lines[i]? with
    | none => (i, acc)
    | some ln =>
      if (pyStrip ln).headD 'x' = '-' then
        match matchListItem (pyStrip ln) with
        | some g => listLoop lines fuel (i + 1) (acc ++ [parse_list_item g])
        | none => listLoop lines fuel (i + 1) acc
      else (i, acc)

/-- The nested-mapping loop of `parse_simple_yaml` (lines 108-138),
entered after a key with empty value.  `none` means the loop has not
finished within `fuel` iterations (the loop genuinely diverges on some
inputs, see the C1 theorems). -/
def nestedLoop (lines : List Str) : Nat → Nat → YDict → Option (Nat × YDict)
  | 0, _, _ => none
  | fuel + 1, i, nested =>
    match lines[i]? with
    | none => some (i, nested)
    | some nl =>
      if pyStrip nl = [] then nestedLoop lines fuel (i + 1) nested
      else if startsWithStr [' ', ' '] nl || startsWithStr ['\t'] nl then
        match matchNestedKV nl with
        | some (nkey, g2) =>
          let nval := pyStrip g2
          if nval.headD 'x' = '-' then
            ((listLoop lines (lines.length - i) i []).2 |> fun items =>
              nestedLoop lines fuel (listLoop lines (lines.length - i) i []).1
                (insertA nested nkey (YamlVal.list items)))
          else nestedLoop lines fuel (i + 1)
            (insertA nested nkey (YamlVal.str (stripQuotes nval)))
        | none => nestedLoop lines fuel (i + 1) nested
      else some (i, nested)

/-- The main loop of `parse_simple_yaml` (lines 60-147), with the
state variables `i`, `result`, `current_key`, `multiline_value`,
`multiline_indent` of the Python code.  When the index leaves the line
list, the trailing-multiline flush of lines 146-147 runs. -/
def mainLoop (lines : List Str) :
    Nat → Nat → YDict → Option Str → List Str → Nat → Option YDict
  | 0, _, _, _, _, _ => none
  | fuel + 1, i, result, curKey, mlVal, mlIndent =>
    match lines[i]? with
    | none =>
      match curKey, mlVal with
      | some ck, _ :: _ =>
        some (insertA result ck (YamlVal.str (pyStrip (strJoinNl mlVal))))
      | _, _ => some result
    | some line =>
      if pyStrip line = [] ∨ (pyStrip line).headD 'x' = '#' then
        match curKey, mlVal with
        | some _, _ :: _ =>
          mainLoop lines fuel (i + 1) result curKey (mlVal ++ [[]]) mlIndent
        | _, _ => mainLoop lines fuel (i + 1) result curKey mlVal mlIndent
      else if curKey.isSome ∧ mlVal ≠ [] ∧ mlIndent ≤ countLeadingWS line then
        mainLoop lines fuel (i + 1) result curKey
          (mlVal ++ [line.drop mlIndent]) mlIndent
      else
        let result1 :=
          if curKey.isSome ∧ mlVal ≠ [] then
            insertA result (curKey.getD []) (YamlVal.str (pyStrip (strJoinNl mlVal)))
          else result
        let curKey1 : Option Str := if curKey.isSome ∧ mlVal ≠ [] then none else curKey
        let mlVal1 : List Str := if curKey.isSome ∧ mlVal ≠ [] then [] else mlVal
        match matchKeyValue (pyStrip line) with
        | none => mainLoop lines fuel (i + 1) result1 curKey1 mlVal1 mlIndent
        | some (key, g2) =>
          let value := pyStrip g2
          if value = ['|'] ∨ value = ['>'] then
            mainLoop lines fuel (i + 1) result1 (some key) [] (countLeadingWS line + 2)
          else if stripQuotes value = [] then
            (nestedLoop lines fuel (i + 1) []).bind (fun x =>
              mainLoop lines fuel x.1 (insertA result1 key (YamlVal.map x.2))
                curKey1 mlVal1 mlIndent)
          else
            mainLoop lines fuel (i + 1)
              (insertA result1 key (YamlVal.str (stripQuotes value)))
              curKey1 mlVal1 mlIndent

/-- `parse_simple_yaml` (lines 36-149). -/
def parse_simple_yaml (fuel : Nat) (yamlText : Str) : Option YDict :=
  mainLoop (splitNl yamlText) fuel 0 [] none [] 0

/-- The delimiter literal `---`. -/
def dash3 : Str := ['-', '-', '-']

/-- `parse_frontmatter` (lines 13-33): `none` only when `parse_simple_yaml`
runs out of fuel. -/
def parse_frontmatter (fuel : Nat) (content : Str) : Option (YDict × Str) :=
  if startsWithStr dash3 content then
    match findSub dash3 (content.drop 3) with
    | none => some ([], content)
    | some j =>
      (parse_simple_yaml fuel (pyStrip ((content.take (j + 3)).drop 3))).map
        (fun m => (m, pyStrip (content.drop (j + 3 + 3))))
  else some ([], content)

example : pyStrip ("  ab ".data) = ['a', 'b'] := by decide
example : splitNl ("a\nb".data) = [['a'], ['b']] := by decide
example : matchKeyValue ("name: x y".data) = some (['n','a','m','e'], ['x',' ','y']) := by decide
example : matchNestedKV ("  a: b".data) = some (['a'], ['b']) := by decide
example : matchListItem ("- item".data) = some (['i','t','e','m']) := by decide
example : findSub dash3 ("ab---c".data) = some 2 := by decide

/-! ### Generic helper lemmas -/

theorem takeWhileAppAll (p : Char → Bool) :
    ∀ xs ys : Str, (∀ c ∈ xs, p c = true) →
      (xs ++ ys).takeWhile p = xs ++ ys.takeWhile p := by
  intro xs
  induction xs with
  | nil => intro ys _; rfl
  | cons c rest ih =>
    intro ys h
    have hc : p c = true := h c (List.mem_cons_self c rest)
    simp only [List.cons_append, List.takeWhile_cons, hc, if_true]
    rw [ih ys (fun d hd => h d (List.mem_cons_of_mem c hd))]

theorem dropWhileAppAll (p : Char → Bool) :
    ∀ xs ys : Str, (∀ c ∈ xs, p c = true) →
      (xs ++ ys).dropWhile p = ys.dropWhile p := by
  intro xs
  induction xs with
  | nil => intro ys _; rfl
  | cons c rest ih =>
    intro ys h
    have hc : p c = true := h c (List.mem_cons_self c rest)
    simp only [List.cons_append, List.dropWhile_cons, hc, if_true]
    exact ih ys (fun d hd => h d (List.mem_cons_of_mem c hd))

theorem dropWhile_of_headD (p : Char → Bool) (cs : Str) (d : Char)
    (h : p (cs.headD d) = false) : cs.dropWhile p = cs := by
  cases cs with
  | nil => rfl
  | cons c rest =>
    simp only [List.headD_cons] at h
    simp [List.dropWhile_cons, h]

theorem getLastD_app (xs v : Str) (d : Char) (hv : v ≠ []) :
    (xs ++ v).getLastD d = v.getLastD d := by
  rw [List.getLastD_eq_getLast?, List.getLastD_eq_getLast?, List.getLast?_append]
  cases hv2 : v.getLast? with
  | none =>
    exact absurd (by simpa using hv2) hv
  | some a => rfl

theorem pyStrip_eq_self (cs : Str) (h1 : pyIsWS (cs.headD 'x') = false)
    (h2 : pyIsWS (cs.getLastD 'x') = false) : pyStrip cs = cs := by
  unfold pyStrip
  rw [dropWhile_of_headD pyIsWS cs 'x' h1]
  have hrev : pyIsWS (cs.reverse.headD 'x') = false := by
    rw [List.headD_eq_head?, List.head?_reverse, ← List.getLastD_eq_getLast?]
    exact h2
  rw [dropWhile_of_headD pyIsWS cs.reverse 'x' hrev, List.reverse_reverse]

theorem splitNl_single (cs : Str) (h : '\n' ∉ cs) : splitNl cs = [cs] := by
  induction cs with
  | nil => rfl
  | cons c rest ih =>
    have hc : ¬ c = '\n' := fun he => h (he ▸ List.mem_cons_self c rest)
    have hr : '\n' ∉ rest := fun hm => h (List.mem_cons_of_mem c hm)
    simp only [splitNl, if_neg hc, ih hr]

theorem findSub_eq_none (pat : Str) : ∀ cs : Str,
    (∀ k, startsWithStr pat (cs.drop k) = false) → findSub pat cs = none := by
  intro cs
  induction cs with
  | nil => intro _; rfl
  | cons c rest ih =>
    intro h
    have h0 : startsWithStr pat (c :: rest) = false := h 0
    simp only [findSub, h0, Bool.false_eq_true, if_false]
    rw [ih (fun k => h (k + 1))]
    rfl

/-! ### C4 / C5: the two no-frontmatter paths of `parse_frontmatter` -/

/-- Claim C4: for every input string whose first three characters are not
the delimiter literal `---`, `parse_frontmatter` returns an empty mapping
and a body equal to the entire input, character for character unchanged. -/
theorem c4_no_delimiter (fuel : Nat) (content : Str)
    (h : startsWithStr dash3 content = false) :
    parse_frontmatter fuel content = some ([], content) := by
  simp [parse_frontmatter, h]

def c4text : Str := "abc".data

/-- Witness for C4 at the concrete input `abc`. -/
theorem c4_witness : parse_frontmatter 5 c4text = some ([], c4text) :=
  c4_no_delimiter 5 c4text (by decide)

/-- Claim C5: for every input string that starts with `---` but has no
further occurrence of `---` at or after offset 3, `parse_frontmatter`
raises no exception (total in the embedding) and returns an empty mapping
with body equal to the entire original input. -/
theorem c5_unclosed (fuel : Nat) (content : Str)
    (h1 : startsWithStr dash3 content = true)
    (h2 : ∀ k, startsWithStr dash3 (content.drop (3 + k)) = false) :
    parse_frontmatter fuel content = some ([], content) := by
  have hf : findSub dash3 (content.drop 3) = none := by
    refine findSub_eq_none dash3 _ (fun k => ?_)
    rw [List.drop_drop]
    exact h2 k
  simp [parse_frontmatter, h1, hf]

def c5text : Str := "---".data

/-- Witness for C5 at the concrete input `---` (opening delimiter only). -/
theorem c5_witness : parse_frontmatter 5 c5text = some ([], c5text) := by
  refine c5_unclosed 5 c5text (by decide) (fun k => ?_)
  have hd : c5text.drop (3 + k) = [] := by
    apply List.drop_eq_nil_of_le
    simp [c5text]
  rw [hd]
  rfl

/-! ### C1: the list branch of the nested loop never advances -/

def c1text : Str := "---\nhooks:\n  PreToolUse: - item\n---\n".data

def c1lines : List Str := ["hooks:".data, "  PreToolUse: - item".data]

/-- On the nested line `  PreToolUse: - item`, the nested value starts
with `-`, but the list loop's guard reads the whole line (whose stripped
form starts with `P`), so the list loop consumes nothing; the nested loop
re-reads the same line with the same index forever. -/
theorem c1_nested_diverges : ∀ fuel nested,
    nestedLoop c1lines fuel 1 nested = none := by
  intro fuel
  induction fuel with
  | zero => intro n; rfl
  | succ f ih => intro n; exact ih _

theorem c1_main_diverges : ∀ fuel,
    mainLoop c1lines fuel 0 [] none [] 0 = none := by
  intro fuel
  cases fuel with
  | zero => rfl
  | succ f =>
    have h := c1_nested_diverges f []
    exact (congrArg (fun o => Option.bind o (fun x : Nat × YDict =>
      mainLoop c1lines f x.1 (insertA [] ("hooks".data) (YamlVal.map x.2))
        none [] 0)) h).trans rfl

/-- Claim C1 (the code violates it): the spec says parsing terminates on
every input, but on the document `---\nhooks:\n  PreToolUse: - item\n---\n`
(a `-`-valued nested line under an empty-valued top-level key) the inner
list loop of `parse_simple_yaml` makes no progress and the parse runs
forever: the fuel semantics returns `none` for every fuel. -/
theorem c1_parse_runs_forever : ∀ fuel,
    parse_frontmatter fuel c1text = none := by
  intro fuel
  have h := c1_main_diverges fuel
  exact (congrArg (Option.map (fun m => (m, ([] : Str)))) h).trans rfl

/-! ### C2: empty-valued nested key followed by a deeper `-` line -/

def c2doc : Str := "---\nhooks:\n  PreToolUse:\n    - command: \"x\"\n---\n".data

def keyHooks : Str := "hooks".data

def keyPTU : Str := "PreToolUse".data

def keyCommand : Str := "command".data

/-- Counterexample to claim C2: on the claimed document the parser binds
`hooks` to `Mapping{PreToolUse: ""}` — the line `    - command: "x"` fails
the nested regex (its first non-whitespace character is `-`, not a
letter) and is silently skipped — so the claimed value
`Mapping{PreToolUse: Sequence[Record{command: x}]}` is not returned. -/
theorem c2_counterexample :
    parse_frontmatter 20 c2doc ≠
      some ([(keyHooks, YamlVal.map [(keyPTU,
        YamlVal.list [YamlVal.map [(keyCommand, YamlVal.str ['x'])]])])], []) := by
  intro h
  have h2 : some (([(keyHooks, YamlVal.map [(keyPTU, YamlVal.str [])])], ([] : Str)))
      = some (([(keyHooks, YamlVal.map [(keyPTU,
          YamlVal.list [YamlVal.map [(keyCommand, YamlVal.str ['x'])]])])], ([] : Str))) := h
  simp [keyHooks, keyPTU] at h2

/-- Claim C2 amended: for the document
`---\nhooks:\n  PreToolUse:\n    - command: "x"\n---\n`,
`parse_frontmatter` returns `hooks` bound to the Mapping
`{PreToolUse: ""}` (the empty-valued nested key becomes the empty-string
scalar) and the more deeply indented `-` line is skipped: the Sequence
branch fires only when the `-` sits on the same line as the nested key. -/
theorem c2_amended_result :
    parse_frontmatter 20 c2doc =
      some ([(keyHooks, YamlVal.map [(keyPTU, YamlVal.str [])])], []) := rfl

/-! ### C3: `|` block scalars are lost entirely -/

def c3doc : Str := "---\nname: x\ndescription: |\n  line one\n  line two\n---\nbody text".data

def keyName : Str := "name".data

def keyDescription : Str := "description".data

def c3body : Str := "body text".data

/-- Claim C3 (the code violates it): the spec says a `description: |` block
yields `description == "line one\nline two"`, but the code's multiline
continuation test `if current_key and multiline_value:` requires the
accumulator to be non-empty while it starts empty and nothing else appends
to it, so the block lines are dropped and the key is never bound: the
result mapping is just `{name: "x"}` (no `description` key) with body
`body text`. -/
theorem c3_block_scalar_lost :
    parse_frontmatter 20 c3doc = some ([(keyName, YamlVal.str ['x'])], c3body)
    ∧ lookupA [(keyName, YamlVal.str ['x'])] keyDescription = none := by
  exact ⟨rfl, rfl⟩

/-! ### C6 / C7 counterexamples -/

def keyTitle : Str := "title".data

def c6line : Str := "title: \"\"".data

/-- Counterexample to claim C6: the header line `title: ""` has a value of
length exactly 2 that starts and ends with the same quote character, but
the key is NOT bound to the inner text `""` → the quote stripping happens
before the empty-value test, so the empty inner text sends the parser into
the nested-mapping branch and `title` is bound to an empty Mapping. -/
theorem c6_counterexample :
    parse_simple_yaml 10 c6line = some [(keyTitle, YamlVal.map [])]
    ∧ YamlVal.map ([] : YDict) ≠ YamlVal.str [] := by
  exact ⟨rfl, by simp⟩

def c7yaml : Str := "a:\n b: c".data

/-- Counterexample to claim C7: after the empty-valued key `a:`, the
follower ` b: c` has a positive leading-whitespace count (one space) but
is NOT treated as indented relative to `a` — the nested block ends at
once (`a` gets the empty Mapping) and `b` is re-parsed as a top-level
key, contradicting the claimed result `{a: {b: c}}`. -/
theorem c7_counterexample :
    parse_simple_yaml 10 c7yaml = some [(['a'], YamlVal.map []), (['b'], YamlVal.str ['c'])]
    ∧ some [(['a'], YamlVal.map []), (['b'], YamlVal.str ['c'])] ≠
        some [(['a'], YamlVal.map [(['b'], YamlVal.str ['c'])])] := by
  exact ⟨rfl, by simp⟩

/-- Claim C7 amended: multiline-block indentation is a raw count of
leading whitespace characters (space and tab each one unit) and nothing
raises; but a follower line after an empty-valued key is treated as
indented only if it literally begins with two spaces or with a tab — any
other line (even with positive leading-whitespace count, e.g. one space,
or a space followed by a tab) ends the nested block on the spot. -/
theorem c7_amended_nested_indent (fuel : Nat) (lines : List Str) (i : Nat)
    (nested : YDict) (ln : Str)
    (hget : lines[i]? = some ln)
    (hne : pyStrip ln ≠ [])
    (h2sp : startsWithStr [' ', ' '] ln = false)
    (htab : startsWithStr ['\t'] ln = false) :
    nestedLoop lines (fuel + 1) i nested = some (i, nested) := by
  simp only [nestedLoop, hget]
  rw [if_neg hne, h2sp, htab]
  simp

def c7line : Str := " \tb: c".data

def c7lines : List Str := ["a:".data, c7line]

/-- Witness for the amended C7: the follower ` \tb: c` (a space followed
by a tab — positive leading-whitespace count) ends the nested block. -/
theorem c7_amended_witness :
    nestedLoop c7lines 4 1 [] = some (1, []) :=
  c7_amended_nested_indent 3 c7lines 1 [] c7line (by rfl) (by decide)
    (by decide) (by decide)

/-! ### Single header-line lemmas (for C6 and C8) -/

/-- The key grammar `[a-zA-Z][a-zA-Z0-9_-]*` of the key regex. -/
def validIdent : Str → Bool
  | [] => false
  | c :: rest => c.isAlpha && rest.all isIdentChar

theorem alpha_not_pyWS (c : Char) (h : c.isAlpha = true) : pyIsWS c = false := by
  cases hw : pyIsWS c with
  | false => rfl
  | true =>
    simp only [pyIsWS, decide_eq_true_eq] at hw
    rcases hw with h1 | h1 | h1 | h1 | h1 | h1 <;> subst h1 <;> exact absurd h (by decide)

theorem alpha_ne_hash (c : Char) (h : c.isAlpha = true) : c ≠ '#' :=
  fun he => absurd (he ▸ h) (by decide)

theorem validIdent_not_nl (key : Str) (hk : validIdent key = true) : '\n' ∉ key := by
  cases key with
  | nil => simp
  | cons c rest =>
    simp only [validIdent, Bool.and_eq_true] at hk
    intro hm
    rcases List.mem_cons.mp hm with he | hm2
    · subst he; exact absurd hk.1 (by decide)
    · exact absurd ((List.all_eq_true.mp hk.2) _ hm2) (by decide)

theorem headD_of_ne (cs : Str) (d1 d2 : Char) (h : cs ≠ []) :
    cs.headD d1 = cs.headD d2 := by
  cases cs with
  | nil => exact absurd rfl h
  | cons c rest => rfl

theorem getLastD_of_ne (cs : Str) (d1 d2 : Char) (h : cs ≠ []) :
    cs.getLastD d1 = cs.getLastD d2 := by
  rw [List.getLastD_eq_getLast?, List.getLastD_eq_getLast?]
  cases hv2 : cs.getLast? with
  | none => exact absurd (by simpa using hv2) h
  | some a => rfl

/-- The key regex on a header line `key: value` with a valid identifier
key and a value with no leading whitespace: group 1 is the key and
group 2 the value. -/
theorem matchKeyValue_kv (key v : Str) (hk : validIdent key = true)
    (hv : pyIsWS (v.headD 'x') = false) :
    matchKeyValue (key ++ ':' :: ' ' :: v) = some (key, v) := by
  cases key with
  | nil => exact absurd hk (by decide)
  | cons k0 ks =>
    simp only [validIdent, Bool.and_eq_true] at hk
    have hall : ∀ c ∈ ks, isIdentChar c = true := List.all_eq_true.mp hk.2
    simp only [List.cons_append, matchKeyValue, hk.1, if_true]
    rw [dropWhileAppAll isIdentChar ks (':' :: ' ' :: v) hall]
    rw [show List.dropWhile isIdentChar (':' :: ' ' :: v) = ':' :: ' ' :: v by
      simp [List.dropWhile_cons, isIdentChar]]
    rw [show List.dropWhile pyIsWS (':' :: ' ' :: v) = ':' :: ' ' :: v by
      simp [List.dropWhile_cons, pyIsWS]]
    show some (k0 :: List.takeWhile isIdentChar (ks ++ ':' :: ' ' :: v),
      List.dropWhile pyIsWS (' ' :: v)) = some (k0 :: ks, v)
    rw [takeWhileAppAll isIdentChar ks (':' :: ' ' :: v) hall]
    rw [show List.takeWhile isIdentChar (':' :: ' ' :: v) = [] by
      simp [List.takeWhile_cons, isIdentChar]]
    rw [show List.dropWhile pyIsWS (' ' :: v) = List.dropWhile pyIsWS v by
      simp [List.dropWhile_cons, pyIsWS]]
    rw [dropWhile_of_headD pyIsWS v 'x' hv, List.append_nil]

theorem mainLoop_out (lines : List Str) (fuel i : Nat) (result : YDict)
    (mlIndent : Nat) (hget : lines[i]? = none) :
    mainLoop lines (fuel + 1) i result none [] mlIndent = some result := by
  simp only [mainLoop, hget]

/-- Core single header-line lemma: a one-line document `key: value` with a
valid identifier key and a clean value binds `key` to the quote-stripped
value. -/
theorem parse_single_kv (fuel : Nat) (key v : Str)
    (hk : validIdent key = true)
    (hnl : '\n' ∉ v)
    (hv0 : v ≠ [])
    (hlead : pyIsWS (v.headD 'x') = false)
    (htrail : pyIsWS (v.getLastD 'x') = false)
    (hp : v ≠ ['|']) (hg : v ≠ ['>'])
    (hq : stripQuotes v ≠ []) :
    parse_simple_yaml (fuel + 2) (key ++ ':' :: ' ' :: v) =
      some [(key, YamlVal.str (stripQuotes v))] := by
  obtain ⟨k0, ks, hkey⟩ : ∃ b l2, key = b :: l2 := by
    cases key with
    | nil => exact absurd hk (by decide)
    | cons a l => exact ⟨a, l, rfl⟩
  have halpha : k0.isAlpha = true := by
    have hk2 := hk
    rw [hkey] at hk2
    simp only [validIdent, Bool.and_eq_true] at hk2
    exact hk2.1
  have hLnl : '\n' ∉ key ++ ':' :: ' ' :: v := by
    intro hm
    rcases List.mem_append.mp hm with h1 | h2
    · exact validIdent_not_nl key hk h1
    · rcases List.mem_cons.mp h2 with h3 | h4
      · exact absurd h3 (by decide)
      · rcases List.mem_cons.mp h4 with h5 | h6
        · exact absurd h5 (by decide)
        · exact hnl h6
  have hhead : (key ++ ':' :: ' ' :: v).headD 'x' = k0 := by rw [hkey]; rfl
  have hne : key ++ ':' :: ' ' :: v ≠ [] := by rw [hkey]; simp
  have hlastL : (key ++ ':' :: ' ' :: v).getLastD 'x' = v.getLastD 'x' := by
    rw [show key ++ ':' :: ' ' :: v = (key ++ [':', ' ']) ++ v by simp]
    exact getLastD_app _ v 'x' hv0
  have hstrip : pyStrip (key ++ ':' :: ' ' :: v) = key ++ ':' :: ' ' :: v :=
    pyStrip_eq_self _ (by rw [hhead]; exact alpha_not_pyWS k0 halpha)
      (by rw [hlastL]; exact htrail)
  have hmkv := matchKeyValue_kv key v hk hlead
  have hpv : pyStrip v = v := pyStrip_eq_self v hlead htrail
  have hc1 : ¬(key ++ ':' :: ' ' :: v = [] ∨
      (key ++ ':' :: ' ' :: v).headD 'x' = '#') := by
    push_neg
    exact ⟨hne, by rw [hhead]; exact alpha_ne_hash k0 halpha⟩
  have hc2 : ¬((none : Option Str).isSome = true ∧ ([] : List Str) ≠ [] ∧
      0 ≤ countLeadingWS (key ++ ':' :: ' ' :: v)) := by simp
  have hc3 : ¬((none : Option Str).isSome = true ∧ ([] : List Str) ≠ []) := by simp
  have hc4 : ¬(v = ['|'] ∨ v = ['>']) := not_or.mpr ⟨hp, hg⟩
  simp only [parse_simple_yaml]
  rw [splitNl_single _ hLnl]
  simp only [mainLoop, List.getElem?_cons_zero, hstrip, if_neg hc1, if_neg hc2,
    if_neg hc3, hmkv, hpv, if_neg hc4, if_neg hq, insertA]
  exact mainLoop_out [key ++ ':' :: ' ' :: v] fuel 1
    [(key, YamlVal.str (stripQuotes v))] 0 rfl

/-- Claim C8: round-trip for unquoted scalars — for every key matching the
identifier grammar and every value that is non-empty, newline-free, has no
leading or trailing whitespace, is not `|` or `>`, and does not both start
and end with the same quote character, parsing the single header line
`key + ": " + value` binds `key` to exactly that value string. -/
theorem c8_roundtrip (fuel : Nat) (key value : Str)
    (hk : validIdent key = true)
    (hv0 : value ≠ [])
    (hnl : '\n' ∉ value)
    (hlead : pyIsWS (value.headD 'x') = false)
    (htrail : pyIsWS (value.getLastD 'x') = false)
    (hp : value ≠ ['|']) (hg : value ≠ ['>'])
    (hq1 : ¬(value.headD ' ' = '"' ∧ value.getLastD ' ' = '"'))
    (hq2 : ¬(value.headD ' ' = '\'' ∧ value.getLastD ' ' = '\'')) :
    parse_simple_yaml (fuel + 2) (key ++ ':' :: ' ' :: value) =
      some [(key, YamlVal.str value)] := by
  have hsq : stripQuotes value = value := by
    unfold stripQuotes
    rw [if_neg hq1, if_neg hq2]
  have h := parse_single_kv fuel key value hk hnl hv0 hlead htrail hp hg
    (by rw [hsq]; exact hv0)
  rw [hsq] at h
  exact h

def c8key : Str := "license".data

def c8val : Str := "MIT".data

/-- Witness for C8: the header line `license: MIT` round-trips. -/
theorem c8_witness :
    parse_simple_yaml 2 (c8key ++ ':' :: ' ' :: c8val) =
      some [(c8key, YamlVal.str c8val)] :=
  c8_roundtrip 0 c8key c8val (by decide) (by decide) (by decide) (by decide)
    (by decide) (by decide) (by decide) (by decide) (by decide)

/-- Claim C6 amended: for every header line `key: v` where the trailing
value starts and ends with the same quote character AND has length at
least 3 (so the inner text is non-empty), the key is bound to the inner
text with the two quote characters stripped and nothing inside the quotes
is reinterpreted as structure.  (The original claim's bound "length at
least 2" fails: a value of exactly two quote characters strips to the
empty string and sends the parser into the nested-mapping branch, see the
counterexample.) -/
theorem c6_amended_quoted (fuel : Nat) (key value : Str) (q : Char)
    (hk : validIdent key = true)
    (hq : q = '"' ∨ q = '\'')
    (hhead : value.headD ' ' = q)
    (hlast : value.getLastD ' ' = q)
    (hlen : 3 ≤ value.length)
    (hnl : '\n' ∉ value) :
    parse_simple_yaml (fuel + 2) (key ++ ':' :: ' ' :: value) =
      some [(key, YamlVal.str ((value.drop 1).dropLast))] := by
  have hv0 : value ≠ [] := by
    intro he
    rw [he] at hlen
    exact absurd hlen (by decide)
  have hqws : pyIsWS q = false := by
    rcases hq with h | h <;> subst h <;> decide
  have hlead : pyIsWS (value.headD 'x') = false := by
    rw [headD_of_ne value 'x' ' ' hv0, hhead]; exact hqws
  have htrail : pyIsWS (value.getLastD 'x') = false := by
    rw [getLastD_of_ne value 'x' ' ' hv0, hlast]; exact hqws
  have hp : value ≠ ['|'] := by
    intro he; rw [he] at hlen; exact absurd hlen (by decide)
  have hg : value ≠ ['>'] := by
    intro he; rw [he] at hlen; exact absurd hlen (by decide)
  have hsq : stripQuotes value = (value.drop 1).dropLast := by
    unfold stripQuotes
    rcases hq with h | h
    · subst h
      rw [if_pos ⟨hhead, hlast⟩]
    · subst h
      rw [if_neg (fun hand => by rw [hhead] at hand; exact absurd hand.1 (by decide)),
        if_pos ⟨hhead, hlast⟩]
  have hqne : stripQuotes value ≠ [] := by
    rw [hsq]
    have hlp : 0 < ((value.drop 1).dropLast).length := by
      rw [List.length_dropLast, List.length_drop]
      omega
    exact List.ne_nil_of_length_pos hlp
  have h := parse_single_kv fuel key value hk hnl hv0 hlead htrail hp hg hqne
  rw [hsq] at h
  exact h

def c6val : Str := "\"a: b\"".data

def c6inner : Str := "a: b".data

/-- Witness for the amended C6: the header line `title: "a: b"` binds
`title` to the literal scalar `a: b`. -/
theorem c6_amended_witness :
    parse_simple_yaml 2 (keyTitle ++ ':' :: ' ' :: c6val) =
      some [(keyTitle, YamlVal.str c6inner)] :=
  c6_amended_quoted 0 keyTitle c6val '"' (by decide) (Or.inl rfl) (by decide)
    (by decide) (by decide) (by decide)

/-! ### C9: `parse_list_item` builds a flat record, later token wins -/

/-- The `key:value` tokens of a list item: whitespace-split tokens of the
stripped item text that contain a colon with a non-empty part after it. -/
def kvToks (item : Str) : List (Str × Str) :=
  (pySplit (pyStrip item)).filterMap tokKV

/-- The record `parse_list_item` builds from the `key:value` tokens, in
order (Python dict assignment). -/
def recordOf (kvs : List (Str × Str)) : YDict :=
  kvs.foldl (fun acc p => insertA acc p.1 (YamlVal.str p.2)) []

theorem lookupA_insertA (m : YDict) (a k : Str) (v : YamlVal) :
    lookupA (insertA m a v) k = if a = k then some v else lookupA m k := by
  induction m with
  | nil => simp [insertA, lookupA]
  | cons p rest ih =>
    obtain ⟨k1, v1⟩ := p
    by_cases h1 : k1 = a
    · subst h1
      by_cases h2 : k1 = k <;> simp [insertA, lookupA, h2]
    · by_cases h2 : k1 = k
      · subst h2
        have ha : ¬(a = k1) := fun he => h1 he.symm
        simp [insertA, lookupA, h1, ha]
      · simp [insertA, lookupA, h1, h2, ih]

theorem lookupA_foldl_ins : ∀ (kvs : List (Str × Str)) (init : YDict) (k : Str),
    lookupA (kvs.foldl (fun acc p => insertA acc p.1 (YamlVal.str p.2)) init) k =
      match kvs.reverse.find? (fun p => decide (p.1 = k)) with
      | some p => some (YamlVal.str p.2)
      | none => lookupA init k := by
  intro kvs
  induction kvs with
  | nil => intro init k; rfl
  | cons p rest ih =>
    intro init k
    simp only [List.foldl_cons]
    rw [ih]
    simp only [List.reverse_cons, List.find?_append]
    cases hf : rest.reverse.find? (fun q => decide (q.1 = k)) with
    | some q => simp [Option.or]
    | none =>
      simp only [Option.none_or]
      by_cases h : p.1 = k
      · simp [List.find?, h, lookupA_insertA]
      · simp [List.find?, h, lookupA_insertA]

theorem insertA_ne_nil (m : YDict) (k : Str) (v : YamlVal) : insertA m k v ≠ [] := by
  cases m with
  | nil => simp [insertA]
  | cons p rest =>
    obtain ⟨k1, v1⟩ := p
    by_cases h : k1 = k <;> simp [insertA, h]

theorem foldl_ins_ne_nil : ∀ (kvs : List (Str × Str)) (init : YDict), init ≠ [] →
    kvs.foldl (fun acc p => insertA acc p.1 (YamlVal.str p.2)) init ≠ [] := by
  intro kvs
  induction kvs with
  | nil => intro init h; exact h
  | cons p rest ih =>
    intro init h
    simp only [List.foldl_cons]
    exact ih _ (insertA_ne_nil _ _ _)

theorem foldl_tokKV_filterMap : ∀ (parts : List Str) (init : YDict),
    parts.foldl (fun acc part =>
      match tokKV part with
      | some (k, v) => insertA acc k (YamlVal.str v)
      | none => acc) init =
    (parts.filterMap tokKV).foldl
      (fun acc p => insertA acc p.1 (YamlVal.str p.2)) init := by
  intro parts
  induction parts with
  | nil => intro init; rfl
  | cons part rest ih =>
    intro init
    simp only [List.foldl_cons, List.filterMap_cons]
    cases ht : tokKV part with
    | none => rw [ih]
    | some q =>
      obtain ⟨k, v⟩ := q
      simp only [List.foldl_cons]
      rw [ih]

theorem mem_pySplitGo : ∀ (cs cur p : Str), p ∈ pySplitGo cs cur →
    ∀ x ∈ p, x ∈ cs ∨ x ∈ cur := by
  intro cs
  induction cs with
  | nil =>
    intro cur p hp x hx
    simp only [pySplitGo] at hp
    by_cases h : cur = []
    · simp [h] at hp
    · rw [if_neg h] at hp
      have he : p = cur.reverse := List.mem_singleton.mp hp
      subst he
      exact Or.inr (List.mem_reverse.mp hx)
  | cons c rest ih =>
    intro cur p hp x hx
    simp only [pySplitGo] at hp
    by_cases h1 : pyIsWS c = true
    · rw [if_pos h1] at hp
      by_cases h2 : cur = []
      · rw [if_pos h2] at hp
        rcases ih [] p hp x hx with hc | hc
        · exact Or.inl (List.mem_cons_of_mem c hc)
        · simp at hc
      · rw [if_neg h2] at hp
        rcases List.mem_cons.mp hp with he | hm
        · subst he
          exact Or.inr (List.mem_reverse.mp hx)
        · rcases ih [] p hm x hx with hc | hc
          · exact Or.inl (List.mem_cons_of_mem c hc)
          · simp at hc
    · rw [if_neg h1] at hp
      rcases ih (c :: cur) p hp x hx with hc | hc
      · exact Or.inl (List.mem_cons_of_mem c hc)
      · rcases List.mem_cons.mp hc with he | hm2
        · subst he
          exact Or.inl (List.mem_cons_self _ _)
        · exact Or.inr hm2

theorem hasColon_of_mem_split (t part : Str) (hmem : part ∈ pySplit t)
    (h : hasColon part = true) : hasColon t = true := by
  simp only [hasColon, List.any_eq_true, decide_eq_true_eq] at h
  obtain ⟨x, hx, he⟩ := h
  subst he
  rcases mem_pySplitGo t [] part hmem ':' hx with h1 | h1
  · simp only [hasColon, List.any_eq_true, decide_eq_true_eq]
    exact ⟨':', h1, rfl⟩
  · simp at h1

/-- `parse_list_item` in terms of the `key:value` tokens: a record when
there is at least one token, the stripped text as scalar otherwise. -/
theorem parse_list_item_eq (item : Str) :
    parse_list_item item =
      (match kvToks item with
       | [] => YamlVal.str (pyStrip item)
       | _ :: _ => YamlVal.map (recordOf (kvToks item))) := by
  cases hhc : hasColon (pyStrip item) with
  | false =>
    have hk : kvToks item = [] := by
      unfold kvToks
      rw [List.filterMap_eq_nil_iff]
      intro a ha
      cases hta : tokKV a with
      | none => rfl
      | some q =>
        have hca : hasColon a = true := by
          cases hca2 : hasColon a with
          | true => rfl
          | false => simp [tokKV, hca2] at hta
        rw [hasColon_of_mem_split (pyStrip item) a ha hca] at hhc
        exact absurd hhc (by simp)
    rw [hk]
    simp [parse_list_item, hhc]
  | true =>
    simp only [parse_list_item, hhc, if_true]
    rw [foldl_tokKV_filterMap]
    rw [show (pySplit (pyStrip item)).filterMap tokKV = kvToks item from rfl]
    cases hk : kvToks item with
    | nil => rfl
    | cons q rest =>
      have hne : (q :: rest).foldl
          (fun acc p => insertA acc p.1 (YamlVal.str p.2)) ([] : YDict) ≠ [] := by
        simp only [List.foldl_cons]
        exact foldl_ins_ne_nil rest _ (insertA_ne_nil _ _ _)
      obtain ⟨r0, rrest, hr⟩ := List.exists_cons_of_ne_nil hne
      rw [hr]
      rw [show recordOf (q :: rest) =
        (q :: rest).foldl (fun acc p => insertA acc p.1 (YamlVal.str p.2)) [] from rfl]
      rw [hr]

/-- Claim C9: for every list-item text containing one or more
whitespace-separated `key:value` tokens (value non-empty),
`parse_list_item` returns a flat Record that maps each such token's key to
its value — looking up any key yields the value of the LAST token carrying
that key (later wins) and `none` for keys carried by no token; item texts
with no such token are kept as scalar items. -/
theorem c9_list_item (item : Str) :
    (kvToks item ≠ [] →
      parse_list_item item = YamlVal.map (recordOf (kvToks item)) ∧
      ∀ k, lookupA (recordOf (kvToks item)) k =
        ((kvToks item).reverse.find? (fun p => decide (p.1 = k))).map
          (fun p => YamlVal.str p.2))
    ∧ (kvToks item = [] → parse_list_item item = YamlVal.str (pyStrip item)) := by
  constructor
  · intro h
    constructor
    · rw [parse_list_item_eq]
      obtain ⟨q, rest, he⟩ := List.exists_cons_of_ne_nil h
      rw [he]
    · intro k
      have haux := lookupA_foldl_ins (kvToks item) [] k
      rw [show recordOf (kvToks item) =
        (kvToks item).foldl (fun acc p => insertA acc p.1 (YamlVal.str p.2)) []
        from rfl]
      rw [haux]
      cases hf : (kvToks item).reverse.find? (fun p => decide (p.1 = k)) with
      | none => rfl
      | some p => rfl
  · intro h
    rw [parse_list_item_eq, h]

def c9item : Str := "a:1 b:2 a:3".data

/-- Witness for C9: in `a:1 b:2 a:3` the later `a:3` wins. -/
theorem c9_witness :
    parse_list_item c9item = YamlVal.map (recordOf (kvToks c9item)) ∧
    lookupA (recordOf (kvToks c9item)) ['a'] = some (YamlVal.str ['3']) := by
  have h := (c9_list_item c9item).1 (by decide)
  refine ⟨h.1, ?_⟩
  rw [h.2 ['a']]
  rfl

/-! ### C10: shape invariant of the returned mapping -/

/-- The value is a plain string scalar. -/
def isStrB : YamlVal → Bool
  | .str _ => true
  | _ => false

/-- Shape of a sequence item: a string, or a flat record whose values are
all strings (what `parse_list_item` can return). -/
def itemOK : YamlVal → Bool
  | .str _ => true
  | .map r => r.all (fun kv => isStrB kv.2)
  | .list _ => false

/-- Shape of a value inside a nested mapping: a string or a list of
well-shaped items — never a mapping. -/
def nestedValOK : YamlVal → Bool
  | .str _ => true
  | .list l => l.all itemOK
  | .map _ => false

/-- Shape of a top-level value: a string, or a mapping whose values are
well-shaped nested values — never a list at top level. -/
def topValOK : YamlVal → Bool
  | .str _ => true
  | .map m => m.all (fun kv => nestedValOK kv.2)
  | .list _ => false

/-- The overall shape bound on a parse result. -/
def wellShaped (m : YDict) : Bool := m.all (fun kv => topValOK kv.2)

theorem insertA_all (P : YamlVal → Bool) (m : YDict) (k : Str) (v : YamlVal)
    (hm : m.all (fun kv => P kv.2) = true) (hv : P v = true) :
    (insertA m k v).all (fun kv => P kv.2) = true := by
  induction m with
  | nil => simp [insertA, hv]
  | cons p rest ih =>
    obtain ⟨k1, v1⟩ := p
    simp only [List.all_cons, Bool.and_eq_true] at hm
    by_cases h : k1 = k
    · simp [insertA, h, hv, hm.2]
    · simp only [insertA, if_neg h, List.all_cons, Bool.and_eq_true]
      exact ⟨hm.1, ih hm.2⟩

theorem foldl_ins_all_str : ∀ (kvs : List (Str × Str)) (init : YDict),
    init.all (fun kv => isStrB kv.2) = true →
    (kvs.foldl (fun acc p => insertA acc p.1 (YamlVal.str p.2)) init).all
      (fun kv => isStrB kv.2) = true := by
  intro kvs
  induction kvs with
  | nil => intro init h; exact h
  | cons p rest ih =>
    intro init h
    simp only [List.foldl_cons]
    exact ih _ (insertA_all _ _ _ _ h rfl)

theorem parse_list_item_ok (g : Str) : itemOK (parse_list_item g) = true := by
  rw [parse_list_item_eq]
  cases hk : kvToks g with
  | nil => rfl
  | cons q rest =>
    show itemOK (YamlVal.map (recordOf (q :: rest))) = true
    show (recordOf (q :: rest)).all (fun kv => isStrB kv.2) = true
    exact foldl_ins_all_str (q :: rest) [] rfl

theorem listLoop_ok (lines : List Str) : ∀ (fuel i : Nat) (acc : List YamlVal),
    acc.all itemOK = true → ((listLoop lines fuel i acc).2).all itemOK = true := by
  intro fuel
  induction fuel with
  | zero => intro i acc h; exact h
  | succ f ih =>
    intro i acc h
    simp only [listLoop]
    split
    · exact h
    · split
      · split
        · refine ih (i + 1) _ ?_
          rw [List.all_append]
          simp [h, parse_list_item_ok]
        · exact ih (i + 1) acc h
      · exact h

theorem nestedLoop_ok (lines : List Str) : ∀ (fuel i : Nat) (nested : YDict)
    (i2 : Nat) (n2 : YDict),
    nested.all (fun kv => nestedValOK kv.2) = true →
    nestedLoop lines fuel i nested = some (i2, n2) →
    n2.all (fun kv => nestedValOK kv.2) = true := by
  intro fuel
  induction fuel with
  | zero =>
    intro i nested i2 n2 h he
    exact absurd he (by simp [nestedLoop])
  | succ f ih =>
    intro i nested i2 n2 h he
    simp only [nestedLoop] at he
    split at he
    · simp only [Option.some.injEq, Prod.mk.injEq] at he
      obtain ⟨he1, he2⟩ := he
      subst he1; subst he2
      exact h
    · split at he
      · exact ih _ _ _ _ h he
      · split at he
        · split at he
          · split at he
            · refine ih _ _ _ _ ?_ he
              refine insertA_all _ _ _ _ h ?_
              show ((listLoop lines (lines.length - i) i []).2).all itemOK = true
              exact listLoop_ok lines _ i [] rfl
            · refine ih _ _ _ _ ?_ he
              exact insertA_all _ _ _ _ h rfl
          · exact ih _ _ _ _ h he
        · simp only [Option.some.injEq, Prod.mk.injEq] at he
          obtain ⟨he1, he2⟩ := he
          subst he1; subst he2
          exact h

theorem wellShaped_ite (c : Prop) [Decidable c] (result : YDict) (k : Str)
    (s : Str) (h : wellShaped result = true) :
    wellShaped (if c then insertA result k (YamlVal.str s) else result) = true := by
  split
  · exact insertA_all _ _ _ _ h rfl
  · exact h

theorem mainLoop_ok (lines : List Str) : ∀ (fuel i : Nat) (result : YDict)
    (curKey : Option Str) (mlVal : List Str) (mlIndent : Nat) (r : YDict),
    wellShaped result = true →
    mainLoop lines fuel i result curKey mlVal mlIndent = some r →
    wellShaped r = true := by
  intro fuel
  induction fuel with
  | zero =>
    intro i result ck ml mi r h he
    exact absurd he (by simp [mainLoop])
  | succ f ih =>
    intro i result ck ml mi r h he
    simp only [mainLoop] at he
    split at he
    · split at he
      · simp only [Option.some.injEq] at he
        subst he
        exact insertA_all _ _ _ _ h rfl
      · simp only [Option.some.injEq] at he
        subst he
        exact h
    · split at he
      · split at he
        · exact ih _ _ _ _ _ _ h he
        · exact ih _ _ _ _ _ _ h he
      · split at he
        · exact ih _ _ _ _ _ _ h he
        · split at he
          · exact ih _ _ _ _ _ _ (wellShaped_ite _ _ _ _ h) he
          · split at he
            · exact ih _ _ _ _ _ _ (wellShaped_ite _ _ _ _ h) he
            · split at he
              · cases hn : nestedLoop lines f (i + 1) [] with
                | none =>
                  rw [hn] at he
                  exact absurd he (by simp)
                | some x =>
                  rw [hn] at he
                  simp only [Option.bind] at he
                  refine ih _ _ _ _ _ _ ?_ he
                  refine insertA_all _ _ _ _ (wellShaped_ite _ _ _ _ h) ?_
                  show (x.2).all (fun kv => nestedValOK kv.2) = true
                  refine nestedLoop_ok lines f (i + 1) [] x.1 x.2 rfl ?_
                  rw [hn]
              · refine ih _ _ _ _ _ _ ?_ he
                exact insertA_all _ _ _ _ (wellShaped_ite _ _ _ _ h) rfl

/-- Claim C10: for every input on which the parse terminates, the returned
mapping has nesting depth at most two — every top-level value is a string
or a (nested-branch) mapping; every value inside such a nested mapping is
a string or a list; list items are strings or flat records of strings; and
no nested-mapping or record value is ever itself a mapping, no matter how
deeply the input text is indented. -/
theorem c10_shape (fuel : Nat) (content : Str) (m : YDict) (body : Str)
    (h : parse_frontmatter fuel content = some (m, body)) :
    wellShaped m = true := by
  unfold parse_frontmatter at h
  split at h
  · split at h
    · simp only [Option.some.injEq, Prod.mk.injEq] at h
      obtain ⟨h1, _⟩ := h
      subst h1
      rfl
    · cases hp : parse_simple_yaml fuel
          (pyStrip ((content.take (_ + 3)).drop 3)) with
      | none =>
        rw [hp] at h
        exact absurd h (by simp)
      | some m2 =>
        rw [hp] at h
        simp only [Option.map_some', Option.some.injEq, Prod.mk.injEq] at h
        obtain ⟨h1, _⟩ := h
        subst h1
        unfold parse_simple_yaml at hp
        exact mainLoop_ok _ fuel 0 [] none [] 0 m2 rfl hp
  · simp only [Option.some.injEq, Prod.mk.injEq] at h
    obtain ⟨h1, _⟩ := h
    subst h1
    rfl

def c10doc : Str := "---\na: b\n---\nrest".data

def c10body : Str := "rest".data

/-- Witness for C10: the parse of `---\na: b\n---\nrest` terminates and
its mapping is well-shaped. -/
theorem c10_witness : wellShaped [(['a'], YamlVal.str ['b'])] = true :=
  c10_shape 10 c10doc [(['a'], YamlVal.str ['b'])] c10body (by rfl)
